import Mathlib

/-!
Verification of the termsweeper board engine (`termsweeper.py`).

The definitions below are a shallow embedding of the game-logic parts of the
source: the `MineGrid` widget's mutable fields (`explored`/`flagged` per
button, `total_explored`, `mines_flagged`, `mines`, `disabled`), the button
labels, and the operations `count_mines_near`, `open_cell`, `flag_cell`,
`handle_selected`, `reveal_mines`, `end_game`, `generate_mines`, `reset`.
Presentation-only bookkeeping (colours, focus, `_current_cell`, widget
layout, the timer/info bar) is not modelled.  `post_message` calls are
modelled by appending to an `events` list, and the single-threaded Textual
message loop by processing the freshly posted `GameEnd` messages right after
the user action that produced them.
-/

namespace Termsweeper

/-- Source `Position` (a NamedTuple of `row` and `col`).  Python ints are
modelled as `Int`: the neighbour scan in `count_mines_near` constructs
positions with coordinates `-1` or `height`, so the type must admit
out-of-range values. -/
structure Position where
  row : Int
  col : Int
deriving DecidableEq, Repr

/-- Board parameters, mirroring the module constants `GRID_WIDTH`,
`GRID_HEIGHT`, `MINES_AMOUNT`.  The source fixes them to 16/16/40 but uses
them only symbolically, so they are parameters here; small boards used by
the spec's acceptance scenarios instantiate them. -/
structure Config where
  width : Nat
  height : Nat
  minesAmount : Nat
deriving DecidableEq, Repr

/-- The source's default 16x16 board with 40 mines. -/
def defaultConfig : Config := ⟨16, 16, 40⟩

/-- Python `range(a, b)` over integers, as a list. -/
def intRange (a b : Int) : List Int :=
  (List.range (b - a).toNat).map fun k : Nat => a + (k : Int)

/-- What a button displays, mirroring the `label` strings the source assigns:
`CHAR_UNOPENED`, `CHAR_EMPTY`, `CHAR_FLAGGED`, `CHAR_MINE`, and `str(value)`
from `set_number`.  Colour styling is presentation-only and omitted. -/
inductive Label where
  | unopened
  | empty
  | flagMark
  | mineMark
  | number (n : Nat)
deriving DecidableEq, Repr

/-- The game-logic state of a `MineGrid` and its buttons: the sets of
positions whose `explored` resp. `flagged` flag is `True`, the button
labels, `total_explored`, `mines_flagged`, the mine set, the `win` fields of
the `GameEnd` messages posted so far (in order), and the grid's `disabled`
flag. -/
structure MineGridState where
  explored : Finset Position
  flagged : Finset Position
  labels : Position → Label
  totalExplored : Nat
  minesFlagged : Int
  mines : Finset Position
  events : List Bool
  disabled : Bool

/-- Assignment to one button's `label`. -/
def setLabel (g : MineGridState) (pos : Position) (l : Label) : MineGridState :=
  { g with labels := fun q => if q = pos then l else g.labels q }

/-- Source `MineGrid.count_mines_near`: the double `for` loop over
`range(pos.row-1, pos.row+1+1)` and `range(pos.col-1, pos.col+1+1)` counting
membership in `self.mines`.  Note that the source neither clips these ranges
to the board nor skips `pos` itself. -/
def count_mines_near (mines : Finset Position) (pos : Position) : Nat :=
  (intRange (pos.row - 1) (pos.row + 1 + 1)).foldl
    (fun count i =>
      (intRange (pos.col - 1) (pos.col + 1 + 1)).foldl
        (fun count j => if (⟨i, j⟩ : Position) ∈ mines then count + 1 else count)
        count)
    0

/-- The positions enumerated by the flood loop in `MineGrid.open_cell`:
`range(max(0, pos.row-1), min(GRID_HEIGHT, pos.row+1+1))` by
`range(max(0, pos.col-1), min(GRID_WIDTH, pos.col+1+1))`, row-major.  The
source includes `pos` itself here (it is already explored by then, so
re-opening it is a no-op). -/
def floodNeighbors (cfg : Config) (pos : Position) : List Position :=
  (intRange (max 0 (pos.row - 1)) (min (cfg.height : Int) (pos.row + 1 + 1))).flatMap
    fun i =>
      (intRange (max 0 (pos.col - 1)) (min (cfg.width : Int) (pos.col + 1 + 1))).map
        fun j => (⟨i, j⟩ : Position)

/-- The win threshold `GRID_HEIGHT*GRID_WIDTH - MINES_AMOUNT` from the
source's win-condition check, as a (possibly negative) integer. -/
def winThreshold (cfg : Config) : Int :=
  (cfg.height : Int) * (cfg.width : Int) - (cfg.minesAmount : Int)

/-- Source `MineGrid.open_cell`, with explicit fuel standing for the call
stack (the source recursion is not structurally decreasing).  Guard order,
counter updates, labels, the flood loop and the win check follow the source
line by line: an explored button returns unchanged; otherwise the button is
marked explored and `total_explored` incremented; a mine posts
`GameEnd(win=False)` and returns; otherwise the neighbour count is taken and,
when zero, every bounds-clipped neighbour is opened recursively; finally
`GameEnd(win=True)` is posted when `total_explored` has reached
`GRID_HEIGHT*GRID_WIDTH - MINES_AMOUNT`. -/
def openCellGo (cfg : Config) : Nat → MineGridState → Position → MineGridState
  | 0, g, _ => g
  | fuel + 1, g, pos =>
    if pos ∈ g.explored then g
    else
      let g1 : MineGridState :=
        { g with explored := insert pos g.explored, totalExplored := g.totalExplored + 1 }
      if pos ∈ g1.mines then
        { setLabel g1 pos Label.mineMark with events := g1.events ++ [false] }
      else
        let minesNearby := count_mines_near g1.mines pos
        let g2 : MineGridState :=
          if minesNearby = 0 then
            (floodNeighbors cfg pos).foldl (fun acc p => openCellGo cfg fuel acc p)
              (setLabel g1 pos Label.empty)
          else setLabel g1 pos (Label.number minesNearby)
        if winThreshold cfg ≤ (g2.totalExplored : Int) then
          { g2 with events := g2.events ++ [true] }
        else g2

/-- Source `MineGrid.open_cell` at the canonical fuel `height*width + 1`;
the fuel-irrelevance theorem for claim C6 shows that any fuel this large
gives the same result, i.e. the source recursion terminates within this
depth. -/
def open_cell (cfg : Config) (g : MineGridState) (pos : Position) : MineGridState :=
  openCellGo cfg (cfg.height * cfg.width + 1) g pos

/-- Source `MineButton.toggle_flagged`: flip the button's `flagged` flag and
set its label accordingly.  Does not touch `mines_flagged`. -/
def toggle_flagged (g : MineGridState) (pos : Position) : MineGridState :=
  if pos ∈ g.flagged then
    setLabel { g with flagged := g.flagged.erase pos } pos Label.unopened
  else
    setLabel { g with flagged := insert pos g.flagged } pos Label.flagMark

/-- Source `MineGrid.flag_cell`: adjust `mines_flagged` by plus or minus one,
then toggle the button's flag. -/
def flag_cell (g : MineGridState) (pos : Position) : MineGridState :=
  toggle_flagged
    { g with minesFlagged := g.minesFlagged + if pos ∈ g.flagged then -1 else 1 }
    pos

/-- One user command as delivered by `MineButton.Selected`: the
`SelectAction` (OPEN or FLAG) together with the selected button's position. -/
inductive Action where
  | openA (pos : Position)
  | flagA (pos : Position)
deriving DecidableEq, Repr

/-- The position a command acts on. -/
def Action.pos : Action → Position
  | .openA p => p
  | .flagA p => p

/-- Source `MineGrid.handle_selected` (its `set_current_cell` focus update is
presentation-only and omitted): OPEN on an unflagged button opens it, FLAG on
an unexplored button toggles its flag, anything else falls through as a
no-op. -/
def handle_selected (cfg : Config) (g : MineGridState) : Action → MineGridState
  | .openA pos => if pos ∉ g.flagged then open_cell cfg g pos else g
  | .flagA pos => if pos ∉ g.explored then flag_cell g pos else g

/-- An arbitrary linear order on positions (row-major), used only to pick a
concrete iteration order for the Python `for mine in self.mines` loop over
the hash set, whose order is unspecified; the loop body is
order-independent. -/
instance : LinearOrder Position :=
  LinearOrder.lift' (fun p => toLex (p.row, p.col))
    (fun p q h => by
      cases p; cases q
      simpa [toLex, Prod.mk.injEq, Position.mk.injEq] using h)

/-- Enumeration of a finite set of positions in row-major order, standing for
the Python `for mine in self.mines` hash-set iteration (whose order is
unspecified; the loop bodies using it are order-independent). -/
def sortedList (s : Finset Position) : List Position :=
  Quot.liftOn s.val (fun l => l.insertionSort (fun p q => p ≤ q))
    (fun l1 l2 h =>
      List.eq_of_perm_of_sorted
        (((l1.perm_insertionSort _).trans h).trans (l2.perm_insertionSort _).symm)
        (List.sorted_insertionSort _ _)
        (List.sorted_insertionSort _ _))

/-- Source `MineGrid.reveal_mines`: on a win, flag every not-yet-flagged mine
(via `toggle_flagged`, so `mines_flagged` is not updated); on a loss, set
every mine's label to the mine character (`MineButton.explode`).  The Python
`for mine in self.mines` iterates the hash set in arbitrary order, modelled
by iterating it in row-major order; the update is order-independent. -/
def reveal_mines (g : MineGridState) (won : Bool) : MineGridState :=
  (sortedList g.mines).foldl
    (fun acc mine =>
      if won then
        if mine ∈ acc.flagged then acc else toggle_flagged acc mine
      else setLabel acc mine Label.mineMark)
    g

/-- Source `MineGrid.end_game`, the `@on(GameEnd)` handler: disable the grid
and reveal the mines according to the message's `win` flag. -/
def end_game (g : MineGridState) (win : Bool) : MineGridState :=
  reveal_mines { g with disabled := true } win

/-- One turn of the single-threaded Textual message loop: a disabled grid
receives no input; otherwise the selection is handled, and every `GameEnd`
message it posted is then processed in order by `end_game` (before any
further user input). -/
def stepGrid (cfg : Config) (g : MineGridState) (a : Action) : MineGridState :=
  if g.disabled then g
  else
    let g1 := handle_selected cfg g a
    (g1.events.drop g.events.length).foldl end_game g1

/-- Source `MineGrid.generate_mines`: each sampled flattened index `x` maps
to `Position(int(x/GRID_WIDTH), x % GRID_WIDTH)` and the results form a set.
The call `random.sample(range(height*width), amount)` is modelled by
quantifying over the sampled list `xs` (distinct indices below
`height*width` of length `amount`); `int(x/W)` is exact floor division at
these magnitudes. -/
def generate_mines (cfg : Config) (xs : List Nat) : Finset Position :=
  (xs.map fun x => (⟨((x / cfg.width : Nat) : Int), ((x % cfg.width : Nat) : Int)⟩ : Position)).toFinset

/-- A freshly constructed grid over the given generated mine set: every
button at its `MineButton.reset` defaults, both counters zero, no messages
posted, grid enabled. -/
def initState (mines : Finset Position) : MineGridState where
  explored := ∅
  flagged := ∅
  labels := fun _ => Label.unopened
  totalExplored := 0
  minesFlagged := 0
  mines := mines
  events := []
  disabled := false

/-- Source `MineGrid.reset`: zero both counters, reset every button,
regenerate the mines and re-enable the grid — a fresh state over the new
mine set. -/
def reset (_g : MineGridState) (newMines : Finset Position) : MineGridState :=
  initState newMines

/-- The set of in-bounds positions, i.e. the buttons that exist. -/
def gridFinset (cfg : Config) : Finset Position :=
  ((Finset.range cfg.height) ×ˢ (Finset.range cfg.width)).image
    fun rc => (⟨(rc.1 : Int), (rc.2 : Int)⟩ : Position)

/-- States reachable by the event loop from a fresh grid with mine set
`mines`: any sequence of user selections of existing (in-bounds) buttons. -/
inductive Reachable (cfg : Config) (mines : Finset Position) : MineGridState → Prop where
  | init : Reachable cfg mines (initState mines)
  | step {g : MineGridState} (a : Action) :
      a.pos ∈ gridFinset cfg → Reachable cfg mines g →
      Reachable cfg mines (stepGrid cfg g a)

/-- Spec-side definition, written from the spec's words rather than the
source, as the comparison point for claim C4: "counts mines among the up-to-8
neighboring positions (row-1..row+1, col-1..col+1, excluding pos itself),
clipped to board bounds". -/
def adjacentMinesSpec (cfg : Config) (mines : Finset Position) (pos : Position) : Nat :=
  (mines.filter fun m =>
    m ≠ pos ∧
    pos.row - 1 ≤ m.row ∧ m.row ≤ pos.row + 1 ∧
    pos.col - 1 ≤ m.col ∧ m.col ≤ pos.col + 1 ∧
    0 ≤ m.row ∧ m.row < (cfg.height : Int) ∧ 0 ≤ m.col ∧ m.col < (cfg.width : Int)).card

/-- The 3x3 neighbourhood actually scanned by `count_mines_near`: unclipped
and including `pos` itself (row-major). -/
def boxList (pos : Position) : List Position :=
  (intRange (pos.row - 1) (pos.row + 1 + 1)).flatMap fun i =>
    (intRange (pos.col - 1) (pos.col + 1 + 1)).map fun j => (⟨i, j⟩ : Position)

/-- Relation between a state and any state `open_cell` (at any fuel) can
produce from it: the mine set, the flags, `mines_flagged` and the disabled
bit are untouched; the explored set only grows; messages are only appended;
and `total_explored` grows by exactly the number of newly explored
buttons. -/
def StepRel (g g' : MineGridState) : Prop :=
  g'.mines = g.mines ∧ g'.flagged = g.flagged ∧ g'.disabled = g.disabled ∧
  g'.minesFlagged = g.minesFlagged ∧ g.explored ⊆ g'.explored ∧
  g.events <+: g'.events ∧
  g'.totalExplored + g.explored.card = g.totalExplored + g'.explored.card

/-- Invariant bundle maintained by every reachable state of a grid whose
configured mine amount is below `height*width` and whose mine set `M` lies
in bounds: the mine set never changes, `total_explored` counts the explored
buttons exactly, explored buttons exist on the grid, an enabled grid has
processed no `GameEnd` message, `GameEnd(win=True)` has been posted exactly
when the win threshold was reached, and `GameEnd(win=False)` exactly when a
mine was explored. -/
def GoodState (cfg : Config) (M : Finset Position) (g : MineGridState) : Prop :=
  g.mines = M ∧
  g.totalExplored = g.explored.card ∧
  g.explored ⊆ gridFinset cfg ∧
  (g.disabled = false → g.events = []) ∧
  (true ∈ g.events ↔
    (winThreshold cfg ≤ (g.totalExplored : Int) ∧ ∀ m ∈ M, m ∉ g.explored)) ∧
  (false ∈ g.events ↔ ∃ m ∈ M, m ∈ g.explored)

/-! Concrete boards used by the acceptance scenarios of the claims. -/

/-- The spec's deterministic 3x3 board configuration with one mine. -/
def cfg3 : Config := ⟨3, 3, 1⟩

/-- Its mine layout: a single mine at `(0,0)`. -/
def mines3 : Finset Position := {⟨0, 0⟩}

/-- A fresh 3x3 grid with the single mine at `(0,0)`. -/
def grid3 : MineGridState := initState mines3

/-- Opening `(2,2)` (adjacent count 0) on the fresh 3x3 board. -/
def grid3Flooded : MineGridState := open_cell cfg3 grid3 ⟨2, 2⟩

/-- Flagging `(1,2)` on the fresh 3x3 board (first user action). -/
def grid3Flag12 : MineGridState := stepGrid cfg3 grid3 (.flagA ⟨1, 2⟩)

/-- ... then opening `(2,2)`: the flood-fill sweeps over the flagged
`(1,2)`. -/
def grid3FlagThenFlood : MineGridState := stepGrid cfg3 grid3Flag12 (.openA ⟨2, 2⟩)

/-- A 3x3 board with two mines, at `(0,0)` and `(1,1)`. -/
def minesPair : Finset Position := {⟨0, 0⟩, ⟨1, 1⟩}

/-- Flagging the mine `(0,0)` on that board (first user action). -/
def pairFlagged : MineGridState := stepGrid cfg3 (initState minesPair) (.flagA ⟨0, 0⟩)

/-- ... then detonating the other mine `(1,1)`: the session is lost and the
loss reveal runs. -/
def pairLost : MineGridState := stepGrid cfg3 pairFlagged (.openA ⟨1, 1⟩)

/-- A 1x2 board with one mine at `(0,0)`. -/
def cfgTiny : Config := ⟨2, 1, 1⟩

/-- Its mine layout. -/
def minesTiny : Finset Position := {⟨0, 0⟩}

/-- Opening the only safe cell `(0,1)` on the 1x2 board: an immediate win. -/
def tinyWin : MineGridState := stepGrid cfgTiny (initState minesTiny) (.openA ⟨0, 1⟩)

/-- Flagging the safe cell `(0,1)` on the 1x2 board (first user action). -/
def tinyFlagged : MineGridState := stepGrid cfgTiny (initState minesTiny) (.flagA ⟨0, 1⟩)

/-- Opening the safe cell `(0,1)` on the fresh 1x2 board directly through
`open_cell`. -/
def tinyOpened : MineGridState := open_cell cfgTiny (initState minesTiny) ⟨0, 1⟩

/-- A 1x1 board with no mines: a degenerate but legal input whose single
cell has adjacent count 0. -/
def cfgUnit : Config := ⟨1, 1, 0⟩

/-- A fresh 1x1 grid with no mines. -/
def gridUnit : MineGridState := initState ∅

/-! Basic lemmas about ranges, folds and the neighbourhood lists. -/

theorem mem_intRange {a b x : Int} : x ∈ intRange a b ↔ a ≤ x ∧ x < b := by
  simp only [intRange, List.mem_map, List.mem_range]
  constructor
  · rintro ⟨k, hk, rfl⟩
    omega
  · intro h
    exact ⟨(x - a).toNat, by omega, by omega⟩

theorem foldl_rel {α S : Type*} {P : S → S → Prop} {f : S → α → S}
    (hrefl : ∀ s, P s s) (htrans : ∀ a b c, P a b → P b c → P a c) :
    ∀ (l : List α) (s : S), (∀ t x, x ∈ l → P t (f t x)) → P s (l.foldl f s)
  | [], s, _ => hrefl s
  | x :: l, s, h =>
    htrans _ _ _ (h s x (List.mem_cons_self x l))
      (foldl_rel hrefl htrans l (f s x) fun t y hy => h t y (List.mem_cons_of_mem _ hy))

theorem foldl_rel_inv {α S : Type*} {P : S → S → Prop} {I : S → Prop} {f : S → α → S}
    (hrefl : ∀ s, P s s) (htrans : ∀ a b c, P a b → P b c → P a c)
    (hI : ∀ t x, I t → I (f t x)) :
    ∀ (l : List α) (s : S), I s → (∀ t x, x ∈ l → I t → P t (f t x)) → P s (l.foldl f s)
  | [], s, _, _ => hrefl s
  | x :: l, s, hs, h =>
    htrans _ _ _ (h s x (List.mem_cons_self x l) hs)
      (foldl_rel_inv hrefl htrans hI l (f s x) (hI s x hs) fun t y hy ht =>
        h t y (List.mem_cons_of_mem _ hy) ht)

theorem foldl_count {α : Type*} (p : α → Prop) [DecidablePred p] :
    ∀ (l : List α) (c : Nat),
      l.foldl (fun c x => if p x then c + 1 else c) c = c + l.countP (fun x => decide (p x))
  | [], _ => by simp
  | x :: l, c => by
    simp only [List.foldl_cons, List.countP_cons, foldl_count p l]
    by_cases h : p x <;> simp [h] <;> omega

theorem count_mines_aux (mines : Finset Position) (cols : List Int) :
    ∀ (rows : List Int) (c : Nat),
      rows.foldl
        (fun count i =>
          cols.foldl
            (fun count j => if (⟨i, j⟩ : Position) ∈ mines then count + 1 else count) count)
        c
        = c + (rows.flatMap fun i => cols.map fun j => (⟨i, j⟩ : Position)).countP
            (fun p => decide (p ∈ mines))
  | [], _ => by simp
  | i :: rows, c => by
    simp only [List.foldl_cons, List.flatMap_cons, List.countP_append,
      count_mines_aux mines cols rows]
    rw [foldl_count (fun j => (⟨i, j⟩ : Position) ∈ mines) cols c, List.countP_map]
    have hc : ((fun p => decide (p ∈ mines)) ∘ fun j : Int => (⟨i, j⟩ : Position)) =
        fun j : Int => decide ((⟨i, j⟩ : Position) ∈ mines) := rfl
    rw [hc]
    omega

theorem count_mines_near_eq_countP (mines : Finset Position) (pos : Position) :
    count_mines_near mines pos = (boxList pos).countP (fun p => decide (p ∈ mines)) := by
  have h :=
    count_mines_aux mines (intRange (pos.col - 1) (pos.col + 1 + 1))
      (intRange (pos.row - 1) (pos.row + 1 + 1)) 0
  rw [Nat.zero_add] at h
  exact h

theorem mem_boxList {pos p : Position} :
    p ∈ boxList pos ↔
      pos.row - 1 ≤ p.row ∧ p.row ≤ pos.row + 1 ∧
      pos.col - 1 ≤ p.col ∧ p.col ≤ pos.col + 1 := by
  simp only [boxList, List.mem_flatMap, List.mem_map, mem_intRange]
  constructor
  · rintro ⟨i, hi, j, hj, rfl⟩
    dsimp only
    exact ⟨by omega, by omega, by omega, by omega⟩
  · intro h
    exact ⟨p.row, by omega, p.col, by omega, rfl⟩

theorem count_mines_near_zero {mines : Finset Position} {pos : Position}
    (h : count_mines_near mines pos = 0) :
    ∀ p : Position, pos.row - 1 ≤ p.row → p.row ≤ pos.row + 1 →
      pos.col - 1 ≤ p.col → p.col ≤ pos.col + 1 → p ∉ mines := by
  rw [count_mines_near_eq_countP] at h
  intro p h1 h2 h3 h4 hp
  have hmem : p ∈ boxList pos := mem_boxList.mpr ⟨h1, h2, h3, h4⟩
  have := List.countP_eq_zero.mp h p hmem
  simp [hp] at this

theorem mem_gridFinset {cfg : Config} {p : Position} :
    p ∈ gridFinset cfg ↔
      0 ≤ p.row ∧ p.row < (cfg.height : Int) ∧ 0 ≤ p.col ∧ p.col < (cfg.width : Int) := by
  simp only [gridFinset, Finset.mem_image, Finset.mem_product, Finset.mem_range, Prod.exists]
  constructor
  · rintro ⟨a, b, ⟨ha, hb⟩, rfl⟩
    dsimp only
    omega
  · intro h
    refine ⟨p.row.toNat, p.col.toNat, ⟨by omega, by omega⟩, ?_⟩
    cases p
    dsimp only at h ⊢
    simp only [Position.mk.injEq]
    omega

theorem mem_floodNeighbors {cfg : Config} {pos p : Position} :
    p ∈ floodNeighbors cfg pos ↔
      max 0 (pos.row - 1) ≤ p.row ∧ p.row < min (cfg.height : Int) (pos.row + 1 + 1) ∧
      max 0 (pos.col - 1) ≤ p.col ∧ p.col < min (cfg.width : Int) (pos.col + 1 + 1) := by
  simp only [floodNeighbors, List.mem_flatMap, List.mem_map, mem_intRange]
  constructor
  · rintro ⟨i, hi, j, hj, rfl⟩
    exact ⟨hi.1, hi.2, hj.1, hj.2⟩
  · intro h
    exact ⟨p.row, ⟨h.1, h.2.1⟩, p.col, ⟨h.2.2.1, h.2.2.2⟩, rfl⟩

theorem floodNeighbors_subset_grid {cfg : Config} {pos : Position} :
    ∀ p ∈ floodNeighbors cfg pos, p ∈ gridFinset cfg := by
  intro p hp
  rw [mem_floodNeighbors] at hp
  rw [mem_gridFinset]
  omega

theorem gridFinset_card (cfg : Config) : (gridFinset cfg).card = cfg.height * cfg.width := by
  rw [gridFinset, Finset.card_image_of_injOn, Finset.card_product, Finset.card_range,
    Finset.card_range]
  intro x _ y _ hxy
  simp only [Position.mk.injEq] at hxy
  have hx : x = (x.1, x.2) := rfl
  have hy : y = (y.1, y.2) := rfl
  rw [hx, hy, Prod.mk.injEq]
  omega

theorem mem_sortedList {s : Finset Position} {p : Position} :
    p ∈ sortedList s ↔ p ∈ s := by
  rcases s with ⟨val, nodup⟩
  revert nodup
  refine Quot.inductionOn val ?_
  intro l _
  show p ∈ l.insertionSort (fun p q => p ≤ q) ↔ _
  rw [(l.perm_insertionSort (fun p q => p ≤ q)).mem_iff]
  simp [Finset.mem_mk, Multiset.mem_coe]

/-! Structural facts about `open_cell`. -/

theorem stepRel_refl (g : MineGridState) : StepRel g g :=
  ⟨rfl, rfl, rfl, rfl, Finset.Subset.refl _, List.prefix_refl _, rfl⟩

theorem stepRel_trans {a b c : MineGridState} (h1 : StepRel a b) (h2 : StepRel b c) :
    StepRel a c := by
  obtain ⟨m1, f1, d1, mf1, e1, p1, t1⟩ := h1
  obtain ⟨m2, f2, d2, mf2, e2, p2, t2⟩ := h2
  refine ⟨m2.trans m1, f2.trans f1, d2.trans d1, mf2.trans mf1, e1.trans e2, p1.trans p2, ?_⟩
  have hc1 := Finset.card_le_card e1
  omega

theorem stepRel_events_append (g : MineGridState) (l : List Bool) :
    StepRel g { g with events := g.events ++ l } :=
  ⟨rfl, rfl, rfl, rfl, Finset.Subset.refl _, List.prefix_append _ _, rfl⟩

theorem stepRel_setLabel (g : MineGridState) (pos : Position) (lab : Label) :
    StepRel g (setLabel g pos lab) :=
  ⟨rfl, rfl, rfl, rfl, Finset.Subset.refl _, List.prefix_refl _, rfl⟩

theorem stepRel_reveal (g : MineGridState) (pos : Position) (hexp : pos ∉ g.explored) :
    StepRel g
      { g with explored := insert pos g.explored, totalExplored := g.totalExplored + 1 } := by
  refine ⟨rfl, rfl, rfl, rfl, Finset.subset_insert _ _, List.prefix_refl _, ?_⟩
  have := Finset.card_insert_of_not_mem hexp
  dsimp only
  omega

theorem openCellGo_stepRel (cfg : Config) :
    ∀ (fuel : Nat) (g : MineGridState) (pos : Position), StepRel g (openCellGo cfg fuel g pos)
  | 0, g, _ => stepRel_refl g
  | fuel + 1, g, pos => by
    simp only [openCellGo]
    by_cases hexp : pos ∈ g.explored
    · rw [if_pos hexp]
      exact stepRel_refl g
    · rw [if_neg hexp]
      by_cases hm : pos ∈ g.mines
      · rw [if_pos hm]
        exact stepRel_trans (stepRel_trans (stepRel_reveal g pos hexp) (stepRel_setLabel _ pos _))
          (stepRel_events_append _ [false])
      · rw [if_neg hm]
        have hfinish : ∀ s : MineGridState, StepRel g s →
            StepRel g
              (if winThreshold cfg ≤ (s.totalExplored : Int) then
                { s with events := s.events ++ [true] }
              else s) := by
          intro s hs
          split
          · exact stepRel_trans hs (stepRel_events_append s [true])
          · exact hs
        apply hfinish
        split
        · refine stepRel_trans
            (stepRel_trans (stepRel_reveal g pos hexp) (stepRel_setLabel _ pos Label.empty)) ?_
          refine foldl_rel stepRel_refl (fun _ _ _ => stepRel_trans) _ _ ?_
          intro t x _
          exact openCellGo_stepRel cfg fuel t x
        · exact stepRel_trans (stepRel_reveal g pos hexp) (stepRel_setLabel _ pos _)

theorem StepRel.mines_eq {a b : MineGridState} (h : StepRel a b) : b.mines = a.mines :=
  h.1

theorem StepRel.flagged_eq {a b : MineGridState} (h : StepRel a b) : b.flagged = a.flagged :=
  h.2.1

theorem StepRel.disabled_eq {a b : MineGridState} (h : StepRel a b) : b.disabled = a.disabled :=
  h.2.2.1

theorem StepRel.minesFlagged_eq {a b : MineGridState} (h : StepRel a b) :
    b.minesFlagged = a.minesFlagged :=
  h.2.2.2.1

theorem StepRel.explored_sub {a b : MineGridState} (h : StepRel a b) :
    a.explored ⊆ b.explored :=
  h.2.2.2.2.1

theorem StepRel.events_grow {a b : MineGridState} (h : StepRel a b) :
    a.events <+: b.events :=
  h.2.2.2.2.2.1

theorem StepRel.count_eq {a b : MineGridState} (h : StepRel a b) :
    b.totalExplored + a.explored.card = a.totalExplored + b.explored.card :=
  h.2.2.2.2.2.2

theorem StepRel.total_le {a b : MineGridState} (h : StepRel a b) :
    a.totalExplored ≤ b.totalExplored := by
  have h1 := h.count_eq
  have h2 := Finset.card_le_card h.explored_sub
  omega

theorem foldl_openCellGo_stepRel (cfg : Config) (fuel : Nat) (l : List Position)
    (s : MineGridState) : StepRel s (l.foldl (fun acc p => openCellGo cfg fuel acc p) s) :=
  foldl_rel stepRel_refl (fun _ _ _ => stepRel_trans) l s
    (fun t x _ => openCellGo_stepRel cfg fuel t x)

theorem openCellGo_explored_eq {cfg : Config} {fuel : Nat} {g : MineGridState} {pos : Position}
    (h : pos ∈ g.explored) : openCellGo cfg (fuel + 1) g pos = g := by
  simp only [openCellGo, if_pos h]

theorem open_cell_explored_eq {cfg : Config} {g : MineGridState} {pos : Position}
    (h : pos ∈ g.explored) : open_cell cfg g pos = g :=
  openCellGo_explored_eq h

theorem openCellGo_mine_eq {cfg : Config} {fuel : Nat} {g : MineGridState} {pos : Position}
    (hexp : pos ∉ g.explored) (hm : pos ∈ g.mines) :
    openCellGo cfg (fuel + 1) g pos =
      { g with
        explored := insert pos g.explored,
        totalExplored := g.totalExplored + 1,
        labels := fun q => if q = pos then Label.mineMark else g.labels q,
        events := g.events ++ [false] } := by
  simp only [openCellGo, if_neg hexp, setLabel]
  rw [if_pos hm]

theorem open_cell_mine_eq {cfg : Config} {g : MineGridState} {pos : Position}
    (hexp : pos ∉ g.explored) (hm : pos ∈ g.mines) :
    open_cell cfg g pos =
      { g with
        explored := insert pos g.explored,
        totalExplored := g.totalExplored + 1,
        labels := fun q => if q = pos then Label.mineMark else g.labels q,
        events := g.events ++ [false] } :=
  openCellGo_mine_eq hexp hm

theorem openCellGo_self_mem (cfg : Config) {fuel : Nat} (hf : 0 < fuel)
    (g : MineGridState) (pos : Position) : pos ∈ (openCellGo cfg fuel g pos).explored := by
  obtain ⟨f, rfl⟩ : ∃ f, fuel = f + 1 := ⟨fuel - 1, by omega⟩
  by_cases hexp : pos ∈ g.explored
  · rw [openCellGo_explored_eq hexp]
    exact hexp
  · by_cases hm : pos ∈ g.mines
    · rw [openCellGo_mine_eq hexp hm]
      exact Finset.mem_insert_self pos g.explored
    · simp only [openCellGo]
      rw [if_neg hexp, if_neg hm]
      have key : ∀ s : MineGridState, pos ∈ s.explored →
          pos ∈ (if winThreshold cfg ≤ (s.totalExplored : Int) then
              { s with events := s.events ++ [true] }
            else s).explored := by
        intro s hs
        split
        · exact hs
        · exact hs
      apply key
      split
      · exact (foldl_openCellGo_stepRel cfg f _ _).explored_sub
          (Finset.mem_insert_self pos g.explored)
      · exact Finset.mem_insert_self pos g.explored

theorem open_cell_self_mem (cfg : Config) (g : MineGridState) (pos : Position) :
    pos ∈ (open_cell cfg g pos).explored :=
  openCellGo_self_mem cfg (Nat.succ_pos _) g pos

theorem finish_total (cfg : Config) (s : MineGridState) :
    (if winThreshold cfg ≤ (s.totalExplored : Int) then { s with events := s.events ++ [true] }
      else s).totalExplored = s.totalExplored := by
  split
  · rfl
  · rfl

theorem finish_explored (cfg : Config) (s : MineGridState) :
    (if winThreshold cfg ≤ (s.totalExplored : Int) then { s with events := s.events ++ [true] }
      else s).explored = s.explored := by
  split
  · rfl
  · rfl

theorem finish_win {cfg : Config} (s : MineGridState)
    (hT : winThreshold cfg ≤ (s.totalExplored : Int)) :
    true ∈ (if winThreshold cfg ≤ (s.totalExplored : Int) then
        { s with events := s.events ++ [true] }
      else s).events := by
  rw [if_pos hT]
  simp

theorem openCellGo_subset_grid (cfg : Config) :
    ∀ (fuel : Nat) (g : MineGridState) (pos : Position), pos ∈ gridFinset cfg →
      (openCellGo cfg fuel g pos).explored ⊆ g.explored ∪ gridFinset cfg
  | 0, g, pos, _ => by
    simp only [openCellGo]
    exact Finset.subset_union_left
  | fuel + 1, g, pos, hpos => by
    by_cases hexp : pos ∈ g.explored
    · rw [openCellGo_explored_eq hexp]
      exact Finset.subset_union_left
    · have hins : insert pos g.explored ⊆ g.explored ∪ gridFinset cfg := by
        intro q hq
        rcases Finset.mem_insert.mp hq with rfl | hq
        · exact Finset.mem_union_right _ hpos
        · exact Finset.mem_union_left _ hq
      by_cases hm : pos ∈ g.mines
      · rw [openCellGo_mine_eq hexp hm]
        exact hins
      · simp only [openCellGo]
        rw [if_neg hexp, if_neg hm]
        intro q hq
        rw [finish_explored] at hq
        split at hq
        · have hsub := foldl_rel
            (P := fun s t : MineGridState => t.explored ⊆ s.explored ∪ gridFinset cfg)
            (fun _ => Finset.subset_union_left)
            (fun a b c h1 h2 r hr => by
              rcases Finset.mem_union.mp (h2 hr) with h | h
              · rcases Finset.mem_union.mp (h1 h) with h' | h'
                · exact Finset.mem_union_left _ h'
                · exact Finset.mem_union_right _ h'
              · exact Finset.mem_union_right _ h)
            (floodNeighbors cfg pos)
            (setLabel
              { g with explored := insert pos g.explored,
                       totalExplored := g.totalExplored + 1 }
              pos Label.empty)
            (fun t x hx => openCellGo_subset_grid cfg fuel t x
              (floodNeighbors_subset_grid x hx))
          rcases Finset.mem_union.mp (hsub hq) with h | h
          · exact hins h
          · exact Finset.mem_union_right _ h
        · exact hins hq

theorem openCellGo_nonmine (cfg : Config) (M : Finset Position) :
    ∀ (fuel : Nat) (g : MineGridState) (pos : Position), g.mines = M → pos ∉ M →
      (openCellGo cfg fuel g pos).explored ∩ M = g.explored ∩ M ∧
      ∀ b ∈ (openCellGo cfg fuel g pos).events, b ∈ g.events ∨ b = true
  | 0, g, pos, _, _ => ⟨rfl, fun _ hb => Or.inl hb⟩
  | fuel + 1, g, pos, hgm, hpm => by
    by_cases hexp : pos ∈ g.explored
    · rw [openCellGo_explored_eq hexp]
      exact ⟨rfl, fun _ hb => Or.inl hb⟩
    · have hm : pos ∉ g.mines := by rw [hgm]; exact hpm
      simp only [openCellGo]
      rw [if_neg hexp, if_neg hm]
      have hins : insert pos g.explored ∩ M = g.explored ∩ M :=
        Finset.insert_inter_of_not_mem hpm
      have hG2 : ∀ s : MineGridState, s.explored ∩ M = g.explored ∩ M →
          (∀ b ∈ s.events, b ∈ g.events ∨ b = true) →
          ((if winThreshold cfg ≤ (s.totalExplored : Int) then
              { s with events := s.events ++ [true] }
            else s).explored ∩ M = g.explored ∩ M ∧
           ∀ b ∈ (if winThreshold cfg ≤ (s.totalExplored : Int) then
              { s with events := s.events ++ [true] }
            else s).events, b ∈ g.events ∨ b = true) := by
        intro s h1 h2
        refine ⟨by rw [finish_explored]; exact h1, ?_⟩
        intro b hb
        split at hb
        · rcases List.mem_append.mp hb with h | h
          · exact h2 b h
          · simp only [List.mem_singleton] at h
            exact Or.inr h
        · exact h2 b hb
      split
      · rename_i hz
        have hfold := foldl_rel_inv
          (P := fun s t : MineGridState => t.explored ∩ M = s.explored ∩ M ∧
            ∀ b ∈ t.events, b ∈ s.events ∨ b = true)
          (I := fun t : MineGridState => t.mines = M)
          (f := fun acc p => openCellGo cfg fuel acc p)
          (fun _ => ⟨rfl, fun _ hb => Or.inl hb⟩)
          (fun a b c h1 h2 => ⟨h2.1.trans h1.1, fun x hx => by
            rcases h2.2 x hx with h | h
            · exact h1.2 x h
            · exact Or.inr h⟩)
          (fun t x ht => by
            show (openCellGo cfg fuel t x).mines = M
            rw [(openCellGo_stepRel cfg fuel t x).mines_eq]
            exact ht)
          (floodNeighbors cfg pos)
          (setLabel
            { g with explored := insert pos g.explored,
                     totalExplored := g.totalExplored + 1 }
            pos Label.empty)
          hgm
          (fun t x hx ht => by
            obtain ⟨b1, b2, b3, b4⟩ := mem_floodNeighbors.mp hx
            have hxm : x ∉ g.mines :=
              count_mines_near_zero hz x (by omega) (by omega) (by omega) (by omega)
            rw [hgm] at hxm
            exact openCellGo_nonmine cfg M fuel t x ht hxm)
        exact hG2 _ (hfold.1.trans hins) hfold.2
      · exact hG2 _ hins fun _ hb => Or.inl hb

theorem openCellGo_win_sound (cfg : Config) :
    ∀ (fuel : Nat) (g : MineGridState) (pos : Position),
      true ∈ (openCellGo cfg fuel g pos).events →
      true ∈ g.events ∨ winThreshold cfg ≤ ((openCellGo cfg fuel g pos).totalExplored : Int)
  | 0, _, _, h => Or.inl h
  | fuel + 1, g, pos, h => by
    by_cases hexp : pos ∈ g.explored
    · rw [openCellGo_explored_eq hexp] at h ⊢
      exact Or.inl h
    · by_cases hm : pos ∈ g.mines
      · rw [openCellGo_mine_eq hexp hm] at h ⊢
        rcases List.mem_append.mp h with h | h
        · exact Or.inl h
        · simp at h
      · have hfold : ∀ (l : List Position) (s : MineGridState),
            true ∈ (l.foldl (fun acc p => openCellGo cfg fuel acc p) s).events →
            true ∈ s.events ∨
              winThreshold cfg ≤
                ((l.foldl (fun acc p => openCellGo cfg fuel acc p) s).totalExplored : Int) := by
          intro l
          induction l with
          | nil => exact fun s hs => Or.inl hs
          | cons x l ih =>
            intro s hs
            simp only [List.foldl_cons] at hs ⊢
            rcases ih (openCellGo cfg fuel s x) hs with h' | h'
            · rcases openCellGo_win_sound cfg fuel s x h' with h2 | h2
              · exact Or.inl h2
              · refine Or.inr (le_trans h2 ?_)
                exact_mod_cast (foldl_openCellGo_stepRel cfg fuel l _).total_le
            · exact Or.inr h'
        simp only [openCellGo] at h ⊢
        rw [if_neg hexp, if_neg hm] at h ⊢
        rw [finish_total]
        split at h
        · rename_i hz
          rw [if_pos hz]
          split at h
          · rename_i hT
            exact Or.inr hT
          · rcases hfold (floodNeighbors cfg pos) _ h with h' | h'
            · exact Or.inl h'
            · exact Or.inr h'
        · rename_i hz
          rw [if_neg hz]
          split at h
          · rename_i hT
            exact Or.inr hT
          · exact Or.inl h

theorem openCellGo_top_win {cfg : Config} {fuel : Nat} {g : MineGridState} {pos : Position}
    (hexp : pos ∉ g.explored) (hm : pos ∉ g.mines)
    (hT : winThreshold cfg ≤ ((openCellGo cfg (fuel + 1) g pos).totalExplored : Int)) :
    true ∈ (openCellGo cfg (fuel + 1) g pos).events := by
  simp only [openCellGo] at hT ⊢
  rw [if_neg hexp, if_neg hm] at hT ⊢
  rw [finish_total] at hT
  exact finish_win _ hT

theorem openCellGo_fuel (cfg : Config) :
    ∀ (n : Nat) (g : MineGridState) (pos : Position) (f1 f2 : Nat),
      pos ∈ gridFinset cfg → (gridFinset cfg \ g.explored).card = n → n < f1 → n < f2 →
      openCellGo cfg f1 g pos = openCellGo cfg f2 g pos := by
  intro n
  induction n using Nat.strong_induction_on with
  | _ n IH =>
    intro g pos f1 f2 hpos hn h1 h2
    obtain ⟨a, rfl⟩ : ∃ a, f1 = a + 1 := ⟨f1 - 1, by omega⟩
    obtain ⟨b, rfl⟩ : ∃ b, f2 = b + 1 := ⟨f2 - 1, by omega⟩
    by_cases hexp : pos ∈ g.explored
    · rw [openCellGo_explored_eq hexp, openCellGo_explored_eq hexp]
    · by_cases hm : pos ∈ g.mines
      · rw [openCellGo_mine_eq hexp hm, openCellGo_mine_eq hexp hm]
      · have hposn : pos ∈ gridFinset cfg \ g.explored := Finset.mem_sdiff.mpr ⟨hpos, hexp⟩
        have hn1 : 1 ≤ n := by
          have := Finset.card_pos.mpr ⟨pos, hposn⟩
          omega
        have key : ∀ l : List Position, (∀ p ∈ l, p ∈ gridFinset cfg) →
            ∀ s : MineGridState, (gridFinset cfg \ s.explored).card < n →
            l.foldl (fun acc p => openCellGo cfg a acc p) s =
              l.foldl (fun acc p => openCellGo cfg b acc p) s := by
          intro l
          induction l with
          | nil => intro _ s _; rfl
          | cons x l ih =>
            intro hl s hs
            simp only [List.foldl_cons]
            have hx : x ∈ gridFinset cfg := hl x (List.mem_cons_self x l)
            have hhead : openCellGo cfg a s x = openCellGo cfg b s x :=
              IH _ hs s x a b hx rfl (by omega) (by omega)
            rw [hhead]
            apply ih fun p hp => hl p (List.mem_cons_of_mem _ hp)
            have hsub : gridFinset cfg \ (openCellGo cfg b s x).explored ⊆
                gridFinset cfg \ s.explored :=
              Finset.sdiff_subset_sdiff (Finset.Subset.refl _)
                (openCellGo_stepRel cfg b s x).explored_sub
            have := Finset.card_le_card hsub
            omega
        simp only [openCellGo]
        rw [if_neg hexp, if_neg hexp, if_neg hm, if_neg hm]
        by_cases hz : count_mines_near g.mines pos = 0
        · rw [if_pos hz, if_pos hz]
          have hstart : (gridFinset cfg \
              (setLabel
                { g with explored := insert pos g.explored,
                         totalExplored := g.totalExplored + 1 }
                pos Label.empty).explored).card < n := by
            have hsd : gridFinset cfg \ insert pos g.explored =
                (gridFinset cfg \ g.explored).erase pos := by
              ext q
              simp only [Finset.mem_sdiff, Finset.mem_insert, Finset.mem_erase]
              tauto
            show (gridFinset cfg \ insert pos g.explored).card < n
            rw [hsd, Finset.card_erase_of_mem hposn]
            omega
          rw [key (floodNeighbors cfg pos) floodNeighbors_subset_grid _ hstart]
        · rw [if_neg hz, if_neg hz]

theorem open_cell_fuel_ge {cfg : Config} {g : MineGridState} {pos : Position}
    (hpos : pos ∈ gridFinset cfg) :
    ∀ f : Nat, cfg.height * cfg.width < f → openCellGo cfg f g pos = open_cell cfg g pos := by
  intro f hf
  have hcard : (gridFinset cfg \ g.explored).card ≤ cfg.height * cfg.width := by
    have h := Finset.card_le_card
      (Finset.sdiff_subset : gridFinset cfg \ g.explored ⊆ gridFinset cfg)
    rw [gridFinset_card] at h
    exact h
  exact openCellGo_fuel cfg _ g pos f (cfg.height * cfg.width + 1) hpos rfl
    (by omega) (by omega)

/-! Session-level helper lemmas. -/

theorem foldl_setLabel_labels (lab : Label) :
    ∀ (l : List Position) (acc : MineGridState) (p : Position),
      (l.foldl (fun acc mine => setLabel acc mine lab) acc).labels p =
        if p ∈ l then lab else acc.labels p
  | [], acc, p => by simp
  | m :: l, acc, p => by
    simp only [List.foldl_cons, foldl_setLabel_labels lab l]
    by_cases hp : p ∈ l
    · simp [hp]
    · by_cases hpm : p = m
      · simp [hp, hpm, setLabel]
      · simp [hp, hpm, setLabel]

theorem reveal_mines_false_eq (g : MineGridState) :
    reveal_mines g false =
      (sortedList g.mines).foldl (fun acc mine => setLabel acc mine Label.mineMark) g := by
  unfold reveal_mines
  simp

theorem reveal_mines_false_labels (g : MineGridState) (p : Position) :
    (reveal_mines g false).labels p = if p ∈ g.mines then Label.mineMark else g.labels p := by
  rw [reveal_mines_false_eq, foldl_setLabel_labels]
  by_cases hp : p ∈ g.mines
  · simp [hp, mem_sortedList]
  · simp [hp, mem_sortedList]

theorem reveal_mines_fields (g : MineGridState) (won : Bool) :
    (reveal_mines g won).explored = g.explored ∧
    (reveal_mines g won).totalExplored = g.totalExplored ∧
    (reveal_mines g won).mines = g.mines ∧
    (reveal_mines g won).events = g.events ∧
    (reveal_mines g won).disabled = g.disabled ∧
    (reveal_mines g won).minesFlagged = g.minesFlagged := by
  unfold reveal_mines
  refine foldl_rel
    (P := fun a b : MineGridState => b.explored = a.explored ∧
      b.totalExplored = a.totalExplored ∧ b.mines = a.mines ∧ b.events = a.events ∧
      b.disabled = a.disabled ∧ b.minesFlagged = a.minesFlagged)
    (fun _ => ⟨rfl, rfl, rfl, rfl, rfl, rfl⟩)
    (fun a b c h1 h2 =>
      ⟨h2.1.trans h1.1, h2.2.1.trans h1.2.1, h2.2.2.1.trans h1.2.2.1,
       h2.2.2.2.1.trans h1.2.2.2.1, h2.2.2.2.2.1.trans h1.2.2.2.2.1,
       h2.2.2.2.2.2.trans h1.2.2.2.2.2⟩)
    _ _ ?_
  intro t x _
  split
  · split
    · exact ⟨rfl, rfl, rfl, rfl, rfl, rfl⟩
    · unfold toggle_flagged
      split
      · exact ⟨rfl, rfl, rfl, rfl, rfl, rfl⟩
      · exact ⟨rfl, rfl, rfl, rfl, rfl, rfl⟩
  · exact ⟨rfl, rfl, rfl, rfl, rfl, rfl⟩

theorem reveal_mines_false_flagged (g : MineGridState) :
    (reveal_mines g false).flagged = g.flagged := by
  rw [reveal_mines_false_eq]
  refine foldl_rel (P := fun a b : MineGridState => b.flagged = a.flagged)
    (fun _ => rfl) (fun a b c h1 h2 => h2.trans h1) _ _ ?_
  intro t x _
  exact rfl

theorem flag_cell_fields (g : MineGridState) (pos : Position) :
    (flag_cell g pos).explored = g.explored ∧
    (flag_cell g pos).totalExplored = g.totalExplored ∧
    (flag_cell g pos).mines = g.mines ∧
    (flag_cell g pos).events = g.events ∧
    (flag_cell g pos).disabled = g.disabled := by
  unfold flag_cell toggle_flagged
  split
  · exact ⟨rfl, rfl, rfl, rfl, rfl⟩
  · exact ⟨rfl, rfl, rfl, rfl, rfl⟩

theorem flag_cell_flagged (g : MineGridState) (pos : Position) :
    (flag_cell g pos).flagged =
      if pos ∈ g.flagged then g.flagged.erase pos else insert pos g.flagged := by
  unfold flag_cell toggle_flagged
  by_cases h : pos ∈ g.flagged
  · simp [h, setLabel]
  · simp [h, setLabel]

theorem end_game_disabled (g : MineGridState) (w : Bool) : (end_game g w).disabled = true := by
  unfold end_game
  exact (reveal_mines_fields { g with disabled := true } w).2.2.2.2.1

theorem end_game_core (g : MineGridState) (w : Bool) :
    (end_game g w).explored = g.explored ∧
    (end_game g w).totalExplored = g.totalExplored ∧
    (end_game g w).mines = g.mines ∧
    (end_game g w).events = g.events := by
  unfold end_game
  obtain ⟨h1, h2, h3, h4, _, _⟩ := reveal_mines_fields { g with disabled := true } w
  exact ⟨h1, h2, h3, h4⟩

theorem foldl_end_game_core (l : List Bool) (g : MineGridState) :
    (l.foldl end_game g).explored = g.explored ∧
    (l.foldl end_game g).totalExplored = g.totalExplored ∧
    (l.foldl end_game g).mines = g.mines ∧
    (l.foldl end_game g).events = g.events := by
  refine foldl_rel
    (P := fun a b : MineGridState => b.explored = a.explored ∧
      b.totalExplored = a.totalExplored ∧ b.mines = a.mines ∧ b.events = a.events)
    (fun _ => ⟨rfl, rfl, rfl, rfl⟩)
    (fun a b c h1 h2 =>
      ⟨h2.1.trans h1.1, h2.2.1.trans h1.2.1, h2.2.2.1.trans h1.2.2.1,
       h2.2.2.2.trans h1.2.2.2⟩)
    _ _ ?_
  intro t x _
  exact end_game_core t x

theorem foldl_end_game_disabled :
    ∀ (l : List Bool) (g : MineGridState), l ≠ [] → (l.foldl end_game g).disabled = true
  | [], _, h => absurd rfl h
  | w :: l, g, _ => by
    cases l with
    | nil => exact end_game_disabled g w
    | cons w2 l2 =>
      exact foldl_end_game_disabled (w2 :: l2) (end_game g w) (by simp)

theorem stepGrid_of_disabled {cfg : Config} {g : MineGridState} (a : Action)
    (h : g.disabled = true) : stepGrid cfg g a = g := by
  simp [stepGrid, h]

theorem stepGrid_of_enabled {cfg : Config} {g : MineGridState} (a : Action)
    (h : g.disabled = false) :
    stepGrid cfg g a =
      ((handle_selected cfg g a).events.drop g.events.length).foldl end_game
        (handle_selected cfg g a) := by
  simp [stepGrid, h]

theorem handle_selected_open_of_flagged {cfg : Config} {g : MineGridState} {pos : Position}
    (h : pos ∈ g.flagged) : handle_selected cfg g (.openA pos) = g := by
  simp [handle_selected, h]

theorem handle_selected_open_eq {cfg : Config} {g : MineGridState} {pos : Position}
    (h : pos ∉ g.flagged) : handle_selected cfg g (.openA pos) = open_cell cfg g pos := by
  simp [handle_selected, h]

theorem handle_selected_flag_of_explored {cfg : Config} {g : MineGridState} {pos : Position}
    (h : pos ∈ g.explored) : handle_selected cfg g (.flagA pos) = g := by
  simp [handle_selected, h]

theorem handle_selected_flag_eq {cfg : Config} {g : MineGridState} {pos : Position}
    (h : pos ∉ g.explored) : handle_selected cfg g (.flagA pos) = flag_cell g pos := by
  simp [handle_selected, h]

theorem winThreshold_cast (cfg : Config) :
    winThreshold cfg = ((cfg.height * cfg.width : Nat) : Int) - (cfg.minesAmount : Int) := by
  unfold winThreshold
  push_cast
  ring

theorem goodState_init (cfg : Config) (M : Finset Position)
    (hM : cfg.minesAmount < cfg.height * cfg.width) :
    GoodState cfg M (initState M) := by
  refine ⟨rfl, by simp [initState], by simp [initState], fun _ => rfl, ?_, ?_⟩
  · constructor
    · intro h
      simp [initState] at h
    · rintro ⟨hT, -⟩
      rw [winThreshold_cast] at hT
      have : ((initState M).totalExplored : Int) = 0 := rfl
      rw [this] at hT
      omega
  · constructor
    · intro h
      simp [initState] at h
    · rintro ⟨m, -, hme⟩
      simp [initState] at hme

theorem goodState_step (cfg : Config) (M : Finset Position)
    {g : MineGridState} (hg : GoodState cfg M g) (a : Action)
    (ha : a.pos ∈ gridFinset cfg) :
    GoodState cfg M (stepGrid cfg g a) := by
  obtain ⟨hmines, htot, hsub, hdis, hwin, hloss⟩ := hg
  by_cases hd : g.disabled = true
  · rw [stepGrid_of_disabled a hd]
    exact ⟨hmines, htot, hsub, hdis, hwin, hloss⟩
  · have hd' : g.disabled = false := by
      cases hc : g.disabled
      · rfl
      · exact absurd hc hd
    have hev : g.events = [] := hdis hd'
    rw [stepGrid_of_enabled a hd']
    cases a with
    | flagA pos =>
      by_cases hpe : pos ∈ g.explored
      · rw [handle_selected_flag_of_explored hpe, List.drop_length]
        exact ⟨hmines, htot, hsub, hdis, hwin, hloss⟩
      · rw [handle_selected_flag_eq hpe]
        obtain ⟨f1, f2, f3, f4, f5⟩ := flag_cell_fields g pos
        rw [f4, List.drop_length]
        simp only [List.foldl_nil]
        refine ⟨f3.trans hmines, ?_, ?_, ?_, ?_, ?_⟩
        · rw [f2, f1]
          exact htot
        · rw [f1]
          exact hsub
        · intro h
          rw [f4]
          refine hdis ?_
          rw [← f5]
          exact h
        · rw [f4, f2, f1]
          exact hwin
        · rw [f4, f1]
          exact hloss
    | openA pos =>
      have hpos : pos ∈ gridFinset cfg := ha
      by_cases hpf : pos ∈ g.flagged
      · rw [handle_selected_open_of_flagged hpf, List.drop_length]
        exact ⟨hmines, htot, hsub, hdis, hwin, hloss⟩
      · rw [handle_selected_open_eq hpf]
        by_cases hpe : pos ∈ g.explored
        · rw [open_cell_explored_eq hpe, List.drop_length]
          exact ⟨hmines, htot, hsub, hdis, hwin, hloss⟩
        · by_cases hpm : pos ∈ g.mines
          · rw [open_cell_mine_eq hpe hpm, hev]
            simp only [List.nil_append, List.length_nil, List.drop_zero, List.foldl_cons,
              List.foldl_nil]
            obtain ⟨e1, e2, e3, e4⟩ := end_game_core
              { g with explored := insert pos g.explored,
                       totalExplored := g.totalExplored + 1,
                       labels := fun q => if q = pos then Label.mineMark else g.labels q,
                       events := [false] } false
            refine ⟨e3.trans hmines, ?_, ?_, ?_, ?_, ?_⟩
            · rw [e2, e1]
              show g.totalExplored + 1 = (insert pos g.explored).card
              rw [Finset.card_insert_of_not_mem hpe, htot]
            · rw [e1]
              intro q hq
              rcases Finset.mem_insert.mp hq with rfl | hq2
              · exact hpos
              · exact hsub hq2
            · intro hfalse
              rw [end_game_disabled _ false] at hfalse
              simp at hfalse
            · rw [e4, e2, e1]
              show true ∈ [false] ↔ _
              constructor
              · intro h
                simp at h
              · rintro ⟨-, hall⟩
                exfalso
                refine hall pos ?_ (Finset.mem_insert_self _ _)
                rw [← hmines]
                exact hpm
            · rw [e4, e1]
              show false ∈ [false] ↔ _
              constructor
              · intro _
                refine ⟨pos, ?_, Finset.mem_insert_self _ _⟩
                rw [← hmines]
                exact hpm
              · intro _
                simp
          · have hrel : StepRel g (open_cell cfg g pos) :=
              openCellGo_stepRel cfg (cfg.height * cfg.width + 1) g pos
            have hpmM : pos ∉ M := by
              rw [← hmines]
              exact hpm
            have hnm : (open_cell cfg g pos).explored ∩ M = g.explored ∩ M ∧
                ∀ b ∈ (open_cell cfg g pos).events, b ∈ g.events ∨ b = true :=
              openCellGo_nonmine cfg M (cfg.height * cfg.width + 1) g pos hmines hpmM
            obtain ⟨tl, htl⟩ := hrel.events_grow
            have hevg1 : (open_cell cfg g pos).events = tl := by
              rw [← htl, hev, List.nil_append]
            have htlT : ∀ b ∈ tl, b = true := by
              intro b hb
              rcases hnm.2 b (by rw [hevg1]; exact hb) with h | h
              · rw [hev] at h
                simp at h
              · exact h
            have hnoexpmine : ∀ m ∈ M, m ∉ g.explored := by
              intro m hm hme
              have hf : false ∈ g.events := hloss.mpr ⟨m, hm, hme⟩
              rw [hev] at hf
              simp at hf
            have hnoexpmine1 : ∀ m ∈ M, m ∉ (open_cell cfg g pos).explored := by
              intro m hm hme
              have hmem : m ∈ (open_cell cfg g pos).explored ∩ M :=
                Finset.mem_inter.mpr ⟨hme, hm⟩
              rw [hnm.1] at hmem
              exact hnoexpmine m hm (Finset.mem_inter.mp hmem).1
            have htot1 : (open_cell cfg g pos).totalExplored =
                (open_cell cfg g pos).explored.card := by
              have h1 := hrel.count_eq
              omega
            have hsub1 : (open_cell cfg g pos).explored ⊆ gridFinset cfg := by
              intro q hq
              rcases Finset.mem_union.mp
                (openCellGo_subset_grid cfg (cfg.height * cfg.width + 1) g pos hpos hq)
                with h | h
              · exact hsub h
              · exact h
            have hminesEq : (open_cell cfg g pos).mines = M := hrel.mines_eq.trans hmines
            have hdrop : (open_cell cfg g pos).events.drop g.events.length = tl := by
              rw [hevg1, hev]
              simp
            rw [hdrop]
            obtain ⟨c1, c2, c3, c4⟩ := foldl_end_game_core tl (open_cell cfg g pos)
            refine ⟨c3.trans hminesEq, ?_, ?_, ?_, ?_, ?_⟩
            · rw [c2, c1]
              exact htot1
            · rw [c1]
              exact hsub1
            · intro hdd
              by_cases htl0 : tl = []
              · rw [c4, hevg1, htl0]
              · rw [foldl_end_game_disabled tl _ htl0] at hdd
                simp at hdd
            · rw [c4, c2, c1, hevg1]
              constructor
              · intro htr
                refine ⟨?_, hnoexpmine1⟩
                rcases (show true ∈ (open_cell cfg g pos).events →
                      true ∈ g.events ∨
                        winThreshold cfg ≤ ((open_cell cfg g pos).totalExplored : Int) from
                    openCellGo_win_sound cfg (cfg.height * cfg.width + 1) g pos)
                  (by rw [hevg1]; exact htr) with h | h
                · rw [hev] at h
                  simp at h
                · exact h
              · rintro ⟨hT, -⟩
                have hw : true ∈ (open_cell cfg g pos).events :=
                  @openCellGo_top_win cfg (cfg.height * cfg.width) g pos hpe hpm hT
                rw [hevg1] at hw
                exact hw
            · rw [c4, c1, hevg1]
              constructor
              · intro hf
                have := htlT false hf
                simp at this
              · rintro ⟨m, hm, hme⟩
                exact absurd hme (hnoexpmine1 m hm)

theorem reachable_goodState {cfg : Config} {M : Finset Position}
    (hM : cfg.minesAmount < cfg.height * cfg.width)
    {g : MineGridState} (hr : Reachable cfg M g) : GoodState cfg M g := by
  induction hr with
  | init => exact goodState_init cfg M hM
  | step a ha _ ih => exact goodState_step cfg M ih a ha

/-! Bridging the source's neighbour count to the spec's description. -/

theorem intRange_nodup (a b : Int) : (intRange a b).Nodup := by
  unfold intRange
  refine List.Nodup.map ?_ (List.nodup_range _)
  intro x y h
  have h' : a + (x : Int) = a + (y : Int) := h
  omega

theorem boxList_nodup (pos : Position) : (boxList pos).Nodup := by
  unfold boxList
  rw [List.nodup_flatMap]
  constructor
  · intro i _
    refine List.Nodup.map ?_ (intRange_nodup _ _)
    intro x y h
    simpa using h
  · refine (intRange_nodup _ _).imp ?_
    intro i1 i2 hne p hp1 hp2
    obtain ⟨j1, -, rfl⟩ := List.mem_map.mp hp1
    obtain ⟨j2, -, h2⟩ := List.mem_map.mp hp2
    apply hne
    have := congrArg Position.row h2
    simpa using this.symm

theorem countP_mem_eq_filter_card {l : List Position} (hl : l.Nodup) (s : Finset Position) :
    l.countP (fun p => decide (p ∈ s)) = (s.filter (fun p => p ∈ l)).card := by
  have h1 : s.filter (fun p => p ∈ l) = (l.filter (fun p => decide (p ∈ s))).toFinset := by
    ext q
    simp only [Finset.mem_filter, List.mem_toFinset, List.mem_filter, decide_eq_true_eq]
    tauto
  rw [h1, List.card_toFinset, List.Nodup.dedup (hl.filter _), List.countP_eq_length_filter]

theorem count_mines_near_eq_spec (cfg : Config) (mines : Finset Position) (pos : Position)
    (hbound : ∀ m ∈ mines, m ∈ gridFinset cfg) (hpos : pos ∉ mines) :
    count_mines_near mines pos = adjacentMinesSpec cfg mines pos := by
  rw [count_mines_near_eq_countP, countP_mem_eq_filter_card (boxList_nodup pos)]
  unfold adjacentMinesSpec
  apply congrArg Finset.card
  apply Finset.filter_congr
  intro m hm
  rw [mem_boxList]
  have hmg := mem_gridFinset.mp (hbound m hm)
  constructor
  · rintro ⟨h1, h2, h3, h4⟩
    refine ⟨?_, h1, h2, h3, h4, hmg.1, hmg.2.1, hmg.2.2.1, hmg.2.2.2⟩
    rintro rfl
    exact hpos hm
  · rintro ⟨-, h1, h2, h3, h4, -⟩
    exact ⟨h1, h2, h3, h4⟩

/-! The claims. -/

set_option maxHeartbeats 2000000 in
/-- Claim C1: opening a cell whose adjacent-mine count is 0 recursively opens
every bounds-clipped 8-neighbourhood cell (all of them end up explored); in
particular, on the 3x3 board with the single mine at (0,0), opening (2,2)
explores every cell except the mine in one call, the cleared condition
`total_explored = 3*3 - 1` holds, and the win message is posted. -/
theorem claim_flood_fill_clears :
    (∀ (cfg : Config) (g : MineGridState) (pos : Position),
        0 < cfg.height * cfg.width → pos ∉ g.explored → pos ∉ g.mines →
        count_mines_near g.mines pos = 0 →
        ∀ p ∈ floodNeighbors cfg pos, p ∈ (open_cell cfg g pos).explored) ∧
    ((∀ p ∈ gridFinset cfg3, p ≠ ⟨0, 0⟩ → p ∈ grid3Flooded.explored) ∧
     (⟨0, 0⟩ : Position) ∉ grid3Flooded.explored ∧
     grid3Flooded.totalExplored = 3 * 3 - 1 ∧
     true ∈ grid3Flooded.events) := by
  constructor
  · intro cfg g pos hpos hexp hm hz p hp
    show p ∈ (openCellGo cfg (cfg.height * cfg.width + 1) g pos).explored
    simp only [openCellGo]
    rw [if_neg hexp, if_neg hm, if_pos hz, finish_explored]
    have key : ∀ (l : List Position) (s : MineGridState), p ∈ l →
        p ∈ (l.foldl (fun acc q => openCellGo cfg (cfg.height * cfg.width) acc q) s).explored := by
      intro l
      induction l with
      | nil =>
        intro s hmem
        simp at hmem
      | cons x l ih =>
        intro s hmem
        simp only [List.foldl_cons]
        rcases List.mem_cons.mp hmem with rfl | hmem2
        · refine (foldl_openCellGo_stepRel cfg _ l _).explored_sub ?_
          exact openCellGo_self_mem cfg (by omega) s p
        · exact ih _ hmem2
    exact key _ _ hp
  · refine ⟨by decide, by decide, by decide, by decide⟩

/-- Witness for C1: the general flood statement instantiated on the mineless
1x1 board, whose single cell (0,0) has adjacent count 0 and is its own
bounds-clipped neighbour. -/
theorem claim_flood_fill_clears_witness :
    (⟨0, 0⟩ : Position) ∈ (open_cell cfgUnit gridUnit ⟨0, 0⟩).explored :=
  claim_flood_fill_clears.1 cfgUnit gridUnit ⟨0, 0⟩ (by decide) (by decide) (by decide)
    (by decide) ⟨0, 0⟩ (by decide)

/-- Claim C2 (failing input): the reachable trace "flag (1,2), then open
(2,2)" on the 3x3 board with one mine at (0,0) leaves the button (1,2)
simultaneously flagged and explored — the flood loop in `open_cell` opens
neighbours without checking their `flagged` attribute, so the invariant
"flagged implies not explored" is violated by the code. -/
theorem claim_flag_invariant_failing :
    ⟨1, 2⟩ ∈ grid3FlagThenFlood.flagged ∧ ⟨1, 2⟩ ∈ grid3FlagThenFlood.explored := by
  decide

/-- Claim C3: on any board with a valid configuration and in-bounds mine set
of the configured size, a reachable state has posted the win message
(`GameEnd(win=True)`, the session's `Won` signal) exactly when `total_explored`
equals `height*width - minesAmount` and no mine cell has been explored. -/
theorem claim_win_condition_exact (cfg : Config) (M : Finset Position) (g : MineGridState)
    (hM : cfg.minesAmount < cfg.height * cfg.width)
    (hMg : M ⊆ gridFinset cfg) (hCard : M.card = cfg.minesAmount)
    (hr : Reachable cfg M g) :
    true ∈ g.events ↔
      (g.totalExplored = cfg.height * cfg.width - cfg.minesAmount ∧
       ∀ m ∈ M, m ∉ g.explored) := by
  obtain ⟨hmines, htot, hsub, hdis, hwin, hloss⟩ := reachable_goodState hM hr
  rw [hwin]
  constructor
  · rintro ⟨hT, hall⟩
    refine ⟨?_, hall⟩
    have hsubm : g.explored ⊆ gridFinset cfg \ M := by
      intro q hq
      refine Finset.mem_sdiff.mpr ⟨hsub hq, ?_⟩
      intro hqm
      exact hall q hqm hq
    have hcard1 : g.explored.card ≤ (gridFinset cfg \ M).card := Finset.card_le_card hsubm
    have hcard2 : (gridFinset cfg \ M).card = cfg.height * cfg.width - cfg.minesAmount := by
      rw [Finset.card_sdiff hMg, gridFinset_card, hCard]
    rw [winThreshold_cast] at hT
    omega
  · rintro ⟨heq, hall⟩
    refine ⟨?_, hall⟩
    rw [winThreshold_cast, heq]
    omega

/-- Witness for C3: on a 1x2 board with the mine at (0,0), opening the only
safe cell (0,1) is a reachable step after which the win message has been
posted, by the right-to-left direction of the claim. -/
theorem claim_win_condition_exact_witness : true ∈ tinyWin.events :=
  (claim_win_condition_exact cfgTiny minesTiny tinyWin (by decide) (by decide) (by decide)
    (Reachable.step (.openA ⟨0, 1⟩) (by decide) Reachable.init)).mpr (by decide)

/-- Claim C4 (counterexample): `count_mines_near` does not exclude `pos`
itself, so at a mine cell it exceeds the spec's bounds-clipped neighbour
count: with the single in-bounds mine (0,0) on the 3x3 board, the source
returns 1 at the in-bounds position (0,0) while the spec's count of the
up-to-8 neighbours excluding the cell itself is 0. -/
theorem claim_adjacency_counterexample :
    count_mines_near mines3 ⟨0, 0⟩ = 1 ∧
    adjacentMinesSpec cfg3 mines3 ⟨0, 0⟩ = 0 ∧
    (⟨0, 0⟩ : Position) ∈ gridFinset cfg3 ∧
    (∀ m ∈ mines3, m ∈ gridFinset cfg3) := by
  decide

/-- Claim C4 (amended): for every in-bounds position that is not itself a
mine — the only positions the engine ever queries, since `open_cell` returns
before counting when the cell is a mine — `count_mines_near` equals the exact
number of mines among the up-to-8 bounds-clipped neighbours (excluding the
cell itself), provided all mines lie in bounds; it is a pure function of the
mine set and the position. -/
theorem claim_adjacency_amended (cfg : Config) (mines : Finset Position) (pos : Position)
    (_hpos : pos ∈ gridFinset cfg) (hbound : ∀ m ∈ mines, m ∈ gridFinset cfg)
    (hpm : pos ∉ mines) :
    count_mines_near mines pos = adjacentMinesSpec cfg mines pos :=
  count_mines_near_eq_spec cfg mines pos hbound hpm

/-- Witness for C4 (amended): the non-mine position (1,1) next to the mine
(0,0) on the 3x3 board. -/
theorem claim_adjacency_amended_witness :
    count_mines_near mines3 ⟨1, 1⟩ = adjacentMinesSpec cfg3 mines3 ⟨1, 1⟩ :=
  claim_adjacency_amended cfg3 mines3 ⟨1, 1⟩ (by decide) (by decide) (by decide)

/-- Claim C5 (counterexample): on loss the source explodes every mine,
including flagged ones — after flagging the mine (0,0) and detonating the
mine (1,1), the flagged mine's label has been overwritten with the mine
character, so flagged mine cells are not left unchanged as the claim
states. -/
theorem claim_loss_reveal_counterexample :
    (⟨0, 0⟩ : Position) ∈ pairLost.mines ∧
    ⟨0, 0⟩ ∈ pairFlagged.flagged ∧
    pairFlagged.labels ⟨0, 0⟩ = Label.flagMark ∧
    ⟨0, 0⟩ ∈ pairLost.flagged ∧
    pairLost.labels ⟨0, 0⟩ = Label.mineMark := by
  decide

/-- Claim C5 (amended): on loss, `reveal_mines` sets the label of every mine
cell — flagged or not — to the exploded/mine mark, and changes nothing else:
non-mine labels, the explored set, `total_explored` (the revealed count), the
flag set, the flag counter and the posted messages are all unchanged. -/
theorem claim_loss_reveal_amended (g : MineGridState) (p : Position) :
    (reveal_mines g false).labels p = (if p ∈ g.mines then Label.mineMark else g.labels p) ∧
    (reveal_mines g false).explored = g.explored ∧
    (reveal_mines g false).totalExplored = g.totalExplored ∧
    (reveal_mines g false).flagged = g.flagged ∧
    (reveal_mines g false).events = g.events ∧
    (reveal_mines g false).minesFlagged = g.minesFlagged := by
  obtain ⟨h1, h2, _, h4, _, h6⟩ := reveal_mines_fields g false
  exact ⟨reveal_mines_false_labels g p, h1, h2, reveal_mines_false_flagged g, h4, h6⟩

/-- Claim C6: the recursive flood-reveal terminates — fuel `height*width + 1`
standing for the call stack is enough, and any larger fuel gives the same
result; each cell is revealed at most once (`total_explored` grows by exactly
the number of newly explored cells, which are a set); and at most
`height*width` cells are ever revealed. -/
theorem claim_flood_bounded (cfg : Config) (g : MineGridState) (pos : Position)
    (hpos : pos ∈ gridFinset cfg) (hsub : g.explored ⊆ gridFinset cfg) :
    (∀ f : Nat, cfg.height * cfg.width < f → openCellGo cfg f g pos = open_cell cfg g pos) ∧
    (open_cell cfg g pos).totalExplored + g.explored.card =
      g.totalExplored + (open_cell cfg g pos).explored.card ∧
    (open_cell cfg g pos).explored.card ≤ cfg.height * cfg.width := by
  refine ⟨fun f hf => open_cell_fuel_ge hpos f hf,
    (openCellGo_stepRel cfg (cfg.height * cfg.width + 1) g pos).count_eq, ?_⟩
  have h1 : (open_cell cfg g pos).explored ⊆ gridFinset cfg := by
    intro q hq
    rcases Finset.mem_union.mp
      (openCellGo_subset_grid cfg (cfg.height * cfg.width + 1) g pos hpos hq) with h | h
    · exact hsub h
    · exact h
  have h2 := Finset.card_le_card h1
  rw [gridFinset_card] at h2
  exact h2

/-- Witness for C6: on the 3x3 board, fuel 12 gives the same flood result as
the canonical fuel, and at most 9 cells are revealed. -/
theorem claim_flood_bounded_witness :
    openCellGo cfg3 12 grid3 ⟨2, 2⟩ = open_cell cfg3 grid3 ⟨2, 2⟩ ∧
    (open_cell cfg3 grid3 ⟨2, 2⟩).explored.card ≤ 3 * 3 := by
  have h := claim_flood_bounded cfg3 grid3 ⟨2, 2⟩ (by decide) (by decide)
  exact ⟨h.1 12 (by decide), h.2.2⟩

/-- Claim C7: for every sample of `minesAmount` distinct flattened indices
below `height*width` (the guarantee of `random.sample`), the generated mine
set has exactly `minesAmount` elements and every mine is in bounds. -/
theorem claim_generate_mines (cfg : Config) (xs : List Nat)
    (_hM0 : 0 < cfg.minesAmount) (hM : cfg.minesAmount < cfg.height * cfg.width)
    (hnd : xs.Nodup) (hlt : ∀ x ∈ xs, x < cfg.height * cfg.width)
    (hlen : xs.length = cfg.minesAmount) :
    (generate_mines cfg xs).card = cfg.minesAmount ∧
    ∀ p ∈ generate_mines cfg xs, p ∈ gridFinset cfg := by
  have hW : 0 < cfg.width := by
    rcases Nat.eq_zero_or_pos cfg.width with h | h
    · rw [h, Nat.mul_zero] at hM
      omega
    · exact h
  constructor
  · unfold generate_mines
    rw [List.card_toFinset, List.Nodup.dedup, List.length_map, hlen]
    refine List.Nodup.map_on ?_ hnd
    intro x hx y hy hxy
    simp only [Position.mk.injEq, Nat.cast_inj] at hxy
    obtain ⟨hdiv, hmod⟩ := hxy
    calc x = cfg.width * (x / cfg.width) + x % cfg.width := (Nat.div_add_mod x cfg.width).symm
      _ = cfg.width * (y / cfg.width) + y % cfg.width := by rw [hdiv, hmod]
      _ = y := Nat.div_add_mod y cfg.width
  · intro p hp
    unfold generate_mines at hp
    rw [List.mem_toFinset] at hp
    obtain ⟨x, hx, rfl⟩ := List.mem_map.mp hp
    rw [mem_gridFinset]
    dsimp only
    have h1 : x / cfg.width < cfg.height :=
      (Nat.div_lt_iff_lt_mul hW).mpr (hlt x hx)
    have h2 : x % cfg.width < cfg.width := Nat.mod_lt x hW
    refine ⟨by exact_mod_cast Nat.zero_le _, by exact_mod_cast h1,
      by exact_mod_cast Nat.zero_le _, by exact_mod_cast h2⟩

/-- Witness for C7: the sample `[0, 4, 8]` on a 3x3 board with 3 mines. -/
theorem claim_generate_mines_witness :
    (generate_mines ⟨3, 3, 3⟩ [0, 4, 8]).card = 3 ∧
    ∀ p ∈ generate_mines ⟨3, 3, 3⟩ [0, 4, 8], p ∈ gridFinset ⟨3, 3, 3⟩ := by
  have h := claim_generate_mines ⟨3, 3, 3⟩ [0, 4, 8] (by decide) (by decide) (by decide)
    (by decide) (by decide)
  exact h

/-- Claim C8: an open request on a flagged button is a blocked no-op — the
state is returned entirely unchanged, so the cell stays flagged and
unrevealed and the revealed count is untouched — and after unflagging it
(one flag action) an open succeeds normally: the cell becomes explored and
the revealed count strictly increases. -/
theorem claim_flag_blocks_open (cfg : Config) (g : MineGridState) (pos : Position)
    (hf : pos ∈ g.flagged) :
    handle_selected cfg g (.openA pos) = g ∧
    (pos ∉ g.explored →
      ((handle_selected cfg g (.flagA pos)).flagged = g.flagged.erase pos ∧
       (handle_selected cfg g (.flagA pos)).explored = g.explored ∧
       (handle_selected cfg g (.flagA pos)).totalExplored = g.totalExplored ∧
       pos ∈ (handle_selected cfg (handle_selected cfg g (.flagA pos)) (.openA pos)).explored ∧
       g.totalExplored <
         (handle_selected cfg (handle_selected cfg g (.flagA pos)) (.openA pos)).totalExplored)) := by
  refine ⟨handle_selected_open_of_flagged hf, ?_⟩
  intro hpe
  rw [handle_selected_flag_eq hpe]
  obtain ⟨f1, f2, f3, f4, f5⟩ := flag_cell_fields g pos
  have hfl : (flag_cell g pos).flagged = g.flagged.erase pos := by
    rw [flag_cell_flagged, if_pos hf]
  have hnotfl : pos ∉ (flag_cell g pos).flagged := by
    rw [hfl]
    exact Finset.not_mem_erase pos g.flagged
  rw [handle_selected_open_eq hnotfl]
  have hrel : StepRel (flag_cell g pos) (open_cell cfg (flag_cell g pos) pos) :=
    openCellGo_stepRel cfg (cfg.height * cfg.width + 1) (flag_cell g pos) pos
  have hself : pos ∈ (open_cell cfg (flag_cell g pos) pos).explored :=
    open_cell_self_mem cfg (flag_cell g pos) pos
  have hnotexp : pos ∉ (flag_cell g pos).explored := by
    rw [f1]
    exact hpe
  have hcard : (flag_cell g pos).explored.card <
      (open_cell cfg (flag_cell g pos) pos).explored.card := by
    refine Finset.card_lt_card ?_
    rw [Finset.ssubset_iff_of_subset hrel.explored_sub]
    exact ⟨pos, hself, hnotexp⟩
  have hc := hrel.count_eq
  refine ⟨hfl, f1, f2, hself, ?_⟩
  omega

/-- Witness for C8: on the 1x2 board with (0,1) flagged, an open on (0,1) is
a no-op, and unflag-then-open explores it. -/
theorem claim_flag_blocks_open_witness :
    handle_selected cfgTiny tinyFlagged (.openA ⟨0, 1⟩) = tinyFlagged ∧
    ⟨0, 1⟩ ∈ (handle_selected cfgTiny (handle_selected cfgTiny tinyFlagged (.flagA ⟨0, 1⟩))
      (.openA ⟨0, 1⟩)).explored := by
  have h := claim_flag_blocks_open cfgTiny tinyFlagged ⟨0, 1⟩ (by decide)
  exact ⟨h.1, (h.2 (by decide)).2.2.2.1⟩

/-- Claim C9: opening an already-revealed cell is an idempotent no-op: an
explored cell's open returns the state unchanged, and hence opening the same
position twice equals opening it once (nothing about the cell or the
revealed count changes on the second open). -/
theorem claim_open_idempotent (cfg : Config) (g : MineGridState) (pos : Position) :
    (pos ∈ g.explored → open_cell cfg g pos = g) ∧
    open_cell cfg (open_cell cfg g pos) pos = open_cell cfg g pos :=
  ⟨fun h => open_cell_explored_eq h,
   open_cell_explored_eq (open_cell_self_mem cfg g pos)⟩

/-- Witness for C9: on the 1x2 board the already-explored (0,1) opens to an
unchanged state, and the double open of (0,1) equals the single one. -/
theorem claim_open_idempotent_witness :
    open_cell cfgTiny tinyOpened ⟨0, 1⟩ = tinyOpened ∧
    open_cell cfgTiny (open_cell cfgTiny (initState minesTiny) ⟨0, 1⟩) ⟨0, 1⟩ =
      open_cell cfgTiny (initState minesTiny) ⟨0, 1⟩ :=
  ⟨(claim_open_idempotent cfgTiny tinyOpened ⟨0, 1⟩).1 (by decide),
   (claim_open_idempotent cfgTiny (initState minesTiny) ⟨0, 1⟩).2⟩

/-- Claim C10: opening a mine directly is the only way a loss is signalled:
opening any non-mine cell (at any fuel) never adds `GameEnd(win=False)`; the
neighbours recursed into from a zero-count cell are never mines; and a direct
mine open produces exactly the detonated state — the mine marked explored and
labelled, the loss message appended, and no further automatic reveals. -/
theorem claim_loss_only_direct :
    (∀ (cfg : Config) (fuel : Nat) (g : MineGridState) (pos : Position), pos ∉ g.mines →
        (false ∈ (openCellGo cfg fuel g pos).events ↔ false ∈ g.events)) ∧
    (∀ (cfg : Config) (mines : Finset Position) (pos : Position),
        count_mines_near mines pos = 0 → ∀ p ∈ floodNeighbors cfg pos, p ∉ mines) ∧
    (∀ (cfg : Config) (g : MineGridState) (pos : Position), pos ∉ g.explored → pos ∈ g.mines →
        open_cell cfg g pos =
          { g with
            explored := insert pos g.explored,
            totalExplored := g.totalExplored + 1,
            labels := fun q => if q = pos then Label.mineMark else g.labels q,
            events := g.events ++ [false] }) := by
  refine ⟨?_, ?_, ?_⟩
  · intro cfg fuel g pos hpm
    constructor
    · intro h
      rcases (openCellGo_nonmine cfg g.mines fuel g pos rfl hpm).2 false h with h2 | h2
      · exact h2
      · simp at h2
    · intro h
      obtain ⟨tl, htl⟩ := (openCellGo_stepRel cfg fuel g pos).events_grow
      rw [← htl]
      exact List.mem_append.mpr (Or.inl h)
  · intro cfg mines pos hz p hp
    obtain ⟨b1, b2, b3, b4⟩ := mem_floodNeighbors.mp hp
    exact count_mines_near_zero hz p (by omega) (by omega) (by omega) (by omega)
  · intro cfg g pos hexp hm
    exact open_cell_mine_eq hexp hm

/-- Witness for C10: the safe flood from (2,2) posts no loss; the flood
neighbour (1,1) of (2,2) is not a mine; and directly opening the mine (1,1)
on the two-mine board produces exactly the detonated state. -/
theorem claim_loss_only_direct_witness :
    (false ∈ grid3Flooded.events ↔ false ∈ grid3.events) ∧
    ((⟨1, 1⟩ : Position) ∉ mines3) ∧
    open_cell cfg3 (initState minesPair) ⟨1, 1⟩ =
      { initState minesPair with
        explored := insert ⟨1, 1⟩ (initState minesPair).explored,
        totalExplored := (initState minesPair).totalExplored + 1,
        labels := fun q => if q = ⟨1, 1⟩ then Label.mineMark
          else (initState minesPair).labels q,
        events := (initState minesPair).events ++ [false] } :=
  ⟨claim_loss_only_direct.1 cfg3 (cfg3.height * cfg3.width + 1) grid3 ⟨2, 2⟩ (by decide),
   claim_loss_only_direct.2.1 cfg3 mines3 ⟨2, 2⟩ (by decide) ⟨1, 1⟩ (by decide),
   claim_loss_only_direct.2.2 cfg3 (initState minesPair) ⟨1, 1⟩ (by decide) (by decide)⟩

end Termsweeper
